import Mathlib

/-!
Shallow embedding of the core logic of src/app.py (a Streamlit series-progress
dashboard).  The embedded functions keep the Python names:

  - parse_progress        (app.py lines 121-134)
  - parse_season_episodes (app.py lines 136-152)
  - determine_status      (app.py lines 154-159)
  - normalize_genres      (app.py lines 170-186)
  - the record sort       (app.py lines 294-300, pandas sort_values on
                           [STATUS_ORDER, LAST_SEEN], ascending [True, False])

Modelling conventions:
  - Python str is modelled as Lean String / List Char; the character classes
    \d, \s and the case maps str.lower / str.upper / str.title are modelled on
    their ASCII fragments (all data relevant to the spec is ASCII apart from
    the fixed delimiters such as the section sign and the arrow, which are
    handled literally).
  - Python int is arbitrary precision, modelled as Int.
  - Python floats are modelled as exact rationals; round(x, 1) is Python's
    banker's rounding (round half to even) at one decimal.
  - try/except ValueError around "w, t = part.split(\"/\"); watched += int(w);
    total += int(t)" is modelled by tallySegment, which reproduces the fact
    that the exception aborts the block after any already-executed increment.
-/

/-! ## Character primitives (ASCII fragments of the Python classes) -/

/-- Python whitespace class (the ASCII part): space, tab, newline, carriage
return, vertical tab, form feed. -/
def pyIsSpace (c : Char) : Bool :=
  decide (c.toNat = 32 ∨ c.toNat = 9 ∨ c.toNat = 10 ∨ c.toNat = 13 ∨
          c.toNat = 11 ∨ c.toNat = 12)

/-- Python \d (ASCII decimal digits). -/
def pyIsDigit (c : Char) : Bool := decide (48 ≤ c.toNat ∧ c.toNat ≤ 57)

/-- Numeric value of an ASCII digit. -/
def digitVal (c : Char) : Nat := c.toNat - 48

/-- ASCII fragment of Python str.lower, one character. -/
def pyToLower (c : Char) : Char :=
  if 65 ≤ c.toNat ∧ c.toNat ≤ 90 then Char.ofNat (c.toNat + 32) else c

/-- ASCII fragment of Python str.upper, one character. -/
def pyToUpper (c : Char) : Char :=
  if 97 ≤ c.toNat ∧ c.toNat ≤ 122 then Char.ofNat (c.toNat - 32) else c

/-- ASCII cased characters (Python's notion of cased, restricted to ASCII). -/
def pyIsAlphaB (c : Char) : Bool :=
  decide ((65 ≤ c.toNat ∧ c.toNat ≤ 90) ∨ (97 ≤ c.toNat ∧ c.toNat ≤ 122))

/-! ## String primitives -/

/-- Python str.strip(): drop whitespace from both ends. -/
def pyStripL (l : List Char) : List Char :=
  ((l.dropWhile pyIsSpace).reverse.dropWhile pyIsSpace).reverse

/-- Python str.split(sep) for a one-character separator: splits at every
occurrence, keeping empty segments, and yields one (possibly empty) segment
even for the empty string. -/
def splitOnChar (sep : Char) : List Char → List (List Char)
  | [] => [[]]
  | c :: cs =>
    if c = sep then [] :: splitOnChar sep cs
    else
      match splitOnChar sep cs with
      | [] => [[c]]
      | p :: ps => (c :: p) :: ps

/-- Digit-run tail of Python int(str) parsing: after the first digit, digits
may be separated by single underscores (PEP 515); anything else fails. -/
def pyIntDigits : Nat → List Char → Option Nat
  | acc, [] => some acc
  | acc, '_' :: c :: rest =>
    if pyIsDigit c then pyIntDigits (acc * 10 + digitVal c) rest else none
  | acc, c :: rest =>
    if pyIsDigit c then pyIntDigits (acc * 10 + digitVal c) rest else none

/-- Python int(str): strips surrounding whitespace, allows one optional sign,
then a nonempty digit run (with single underscores between digits); returns
none where Python raises ValueError. -/
def pyInt (l : List Char) : Option Int :=
  match pyStripL l with
  | '+' :: c :: rest =>
    if pyIsDigit c then (pyIntDigits (digitVal c) rest).map (fun n => (n : Int))
    else none
  | '-' :: c :: rest =>
    if pyIsDigit c then (pyIntDigits (digitVal c) rest).map (fun n => -(n : Int))
    else none
  | c :: rest =>
    if pyIsDigit c then (pyIntDigits (digitVal c) rest).map (fun n => (n : Int))
    else none
  | [] => none

/-! ## Rounding (Python round at one decimal, half to even) -/

/-- Round the rational n / d (for positive d) to the nearest integer, ties to
even: this is Python's round applied to an exact rational.  n.fdiv d is the
floor of n / d (Int.fdiv rounds toward negative infinity) and
2 * (n - n.fdiv d * d) is twice the nonnegative remainder, so comparing it
with d discriminates the fraction part against one half. -/
def roundHalfEven (n d : ℤ) : ℤ :=
  if 2 * (n - n.fdiv d * d) < d then n.fdiv d
  else if d < 2 * (n - n.fdiv d * d) then n.fdiv d + 1
  else if n.fdiv d % 2 = 0 then n.fdiv d else n.fdiv d + 1

/-- The percentage computed at app.py line 151:
round((watched / total) * 100, 1) if total > 0 else 0.
round(q, 1) is (round half even of 10 * q) / 10, and 10 * (w / t * 100) is
1000 * w / t, computed exactly over the rationals. -/
def tallyPercent (w t : ℤ) : ℚ :=
  if 0 < t then mkRat (roundHalfEven (1000 * w) t) 10 else 0

/-! ## parse_season_episodes (app.py 136-152) -/

/-- Contribution of one section-sign segment to (watched, total), modelling the
try/except ValueError block of app.py lines 144-149.  The unpacking
"w, t = part.split(\"/\")" raises unless the split has exactly two pieces;
"watched += int(w)" runs before "total += int(t)", so when int(w) succeeds and
int(t) raises, the watched increment has already happened and is kept. -/
def tallySegment (part : List Char) : ℤ × ℤ :=
  match splitOnChar '/' part with
  | [a, b] =>
    match pyInt a with
    | none => (0, 0)
    | some w =>
      match pyInt b with
      | none => (w, 0)
      | some t => (w, t)
  | _ => (0, 0)

/-- parse_season_episodes (app.py 136-152): sentinel guard, then the loop over
the section-sign split accumulating (watched, total), then the percentage. -/
def parse_season_episodes (s : String) : ℤ × ℤ × ℚ :=
  if s = "" ∨ pyStripL s.toList = "#N/A".toList then (0, 0, 0)
  else
    let totals := (splitOnChar '§' s.toList).foldl
      (fun acc part => ((acc.1 + (tallySegment part).1 : ℤ),
                        (acc.2 + (tallySegment part).2 : ℤ))) ((0 : ℤ), (0 : ℤ))
    (totals.1, totals.2, tallyPercent totals.1 totals.2)

/-! ## determine_status (app.py 154-159) -/

/-- The three status strings returned by determine_status, as an enum:
completed = "Completed", watching = "Watching", notStarted = "Not started". -/
inductive ViewStatus where
  | completed
  | watching
  | notStarted
deriving DecidableEq, Repr

/-- determine_status (app.py 154-159). -/
def determine_status (watched total : ℤ) : ViewStatus :=
  if 0 < total ∧ watched = total then .completed
  else if 0 < watched then .watching
  else .notStarted

/-! ## parse_progress (app.py 121-134)

The regular expression is the literal pattern of app.py line 125,
S(\d{2})E(\d{2})\s*arrow\s*(.+) where arrow is the three-character token
left-arrow, hyphen-minus, right-arrow.  re.search scans for the leftmost
starting position at which the pattern matches.  At a given position the
backtracking behaviour of the pattern specialises as follows:

  - the first \s* is effectively possessive: it swallows the maximal
    whitespace run, and backtracking into it cannot help because the
    character that must follow (the left arrow) is not whitespace;
  - in \s*(.+) the group must grab at least one non-newline character.  If a
    non-whitespace character follows the whitespace run, the group starts
    there and extends to the end of the string or the first newline
    (whitespace characters other than newline are not newlines, and a
    non-whitespace character is not a newline either).  If only whitespace
    remains, the engine backs up to the last whitespace character that is not
    a newline (everything after it is newlines), and the group is exactly
    that single character; with no such character the position fails. -/

/-- Group 3 of the pattern: match \s*arrow\s*(.+) against the text following
the SddEdd prefix, returning the text captured by the group. -/
def arrowTail (rest : List Char) : Option (List Char) :=
  match rest.dropWhile pyIsSpace with
  | '←' :: '-' :: '→' :: r2 =>
    match r2.dropWhile pyIsSpace with
    | [] =>
      match (r2.filter (fun c => c != '\n')).getLast? with
      | some c => some [c]
      | none => none
    | c :: r3 => some ((c :: r3).takeWhile (fun c => c != '\n'))
  | _ => none

/-- Match the whole pattern at the current position: the literal S, two
digits, the literal E, two digits, then arrowTail.  Returns the season and
episode values of int(group(1)) and int(group(2)) and the group 3 text. -/
def progMatchFrom : List Char → Option (ℕ × ℕ × List Char)
  | c :: d1 :: d2 :: e :: e1 :: e2 :: rest =>
    if c = 'S' ∧ pyIsDigit d1 ∧ pyIsDigit d2 ∧ e = 'E' ∧
       pyIsDigit e1 ∧ pyIsDigit e2 then
      match arrowTail rest with
      | some g3 => some (digitVal d1 * 10 + digitVal d2,
                         digitVal e1 * 10 + digitVal e2, g3)
      | none => none
    else none
  | _ => none

/-- re.search: try the pattern at position 0, 1, 2, ... and return the first
match. -/
def pyProgSearch : List Char → Option (ℕ × ℕ × List Char)
  | [] => progMatchFrom []
  | c :: cs =>
    match progMatchFrom (c :: cs) with
    | some r => some r
    | none => pyProgSearch cs

/-- The three shapes of dictionary returned by parse_progress:
notStarted is the line 123 result with status "Not started", unknown is the
line 127 result with status "Unknown", and watching carries the season,
episode and raw date text of the line 129-134 result. -/
inductive ProgressResult where
  | notStarted
  | unknown
  | watching (season episode : ℕ) (date : String)
deriving DecidableEq, Repr

/-- parse_progress (app.py 121-134). -/
def parse_progress (s : String) : ProgressResult :=
  if s = "" ∨ pyStripL s.toList = "#N/A".toList then .notStarted
  else
    match pyProgSearch s.toList with
    | none => .unknown
    | some (se, ep, d) => .watching se ep (String.mk d)

/-! ## normalize_genres (app.py 170-186) -/

/-- ASCII fragment of Python str.lower on a string. -/
def pyLowerL (l : List Char) : List Char := l.map pyToLower

/-- ASCII fragment of Python str.title: walking left to right, a cased
character is uppercased when the previous character is not cased and
lowercased otherwise.  The Boolean state records whether the previous
character was cased. -/
def pyTitleGo (prevCased : Bool) : List Char → List Char
  | [] => []
  | c :: cs =>
    (if prevCased then pyToLower c else pyToUpper c) :: pyTitleGo (pyIsAlphaB c) cs

/-- Python str.title (ASCII fragment). -/
def pyTitleL (l : List Char) : List Char := pyTitleGo false l

/-- GENRE_CANONICAL (app.py 30-75), in source order. -/
def GENRE_CANONICAL : List (String × String) :=
  [("action", "Action"), ("adventure", "Adventure"), ("animation", "Animation"),
   ("children", "Children"), ("family", "Family"), ("drama", "Drama"),
   ("thriller", "Thriller"), ("suspense", "Suspense"), ("mystery", "Mystery"),
   ("crime", "Crime"), ("fantasy", "Fantasy"), ("horror", "Horror"),
   ("science-fiction", "Sci-Fi"), ("scifi", "Sci-Fi"), ("comedy", "Comedy"),
   ("romance", "Romance"), ("reality", "Reality"), ("documentary", "Documentary"),
   ("documentaire", "Documentary"), ("doctor", "Medical"), ("doctors", "Medical"),
   ("lawyers", "Legal"), ("cops", "Police"), ("fbi", "FBI"), ("cia", "CIA"),
   ("spy", "Spy"), ("marvel", "Marvel"), ("dc comics", "DC Comics"),
   ("star wars", "Star Wars"), ("star trek", "Star Trek"),
   ("superhero", "Superhero"), ("heroes", "Heroes"), ("vampires", "Vampires"),
   ("zombies", "Zombies"), ("monsters", "Monsters"), ("war", "War"),
   ("western", "Western"), ("sport", "Sport"), ("music", "Music"),
   ("history", "History"), ("holiday", "Holiday"), ("talk-show", "Talk Show"),
   ("game-show", "Game Show"), ("special-interest", "Special Interest")]

/-- GENRE_BLACKLIST (app.py 77-83). -/
def GENRE_BLACKLIST : List (List Char) :=
  ["delete".toList, "delete?".toList, "delete!?".toList,
   "selecteer genres...".toList, "".toList]

/-- GENRE_CANONICAL.get(key): first pair whose key matches (the dict has no
duplicate keys). -/
def canonLookup (key : List Char) : Option (List Char) :=
  match GENRE_CANONICAL.find? (fun p => decide (p.1.toList = key)) with
  | some p => some p.2.toList
  | none => none

/-- The loop body key of app.py line 178: key = g.lower().strip(). -/
def genreKey (g : List Char) : List Char := pyStripL (pyLowerL g)

/-- One iteration of the loop at app.py 177-184, before deduplication: none
when the key is blacklisted, otherwise GENRE_CANONICAL.get(key, g.title()). -/
def processTok (g : List Char) : Option (List Char) :=
  if genreKey g ∈ GENRE_BLACKLIST then none
  else some ((canonLookup (genreKey g)).getD (pyTitleL g))

/-- Deduplicating accumulation of app.py 183-184: append the canonical value
unless already present. -/
def addTok (acc : List (List Char)) (g : List Char) : List (List Char) :=
  match processTok g with
  | none => acc
  | some c => if c ∈ acc then acc else acc ++ [c]

/-- The normalized list, on character lists: split on comma, strip each
token, then fold the loop. -/
def normCore (l : List Char) : List (List Char) :=
  ((splitOnChar ',' l).map pyStripL).foldl addTok []

/-- normalize_genres (app.py 170-186). -/
def normalize_genres (raw : String) : List String :=
  if raw = "" then [] else (normCore raw.toList).map String.mk

/-- Join a list of labels into one comma-separated string (comma and space,
as a display list would be re-fed); any separator of the form comma followed
by whitespace gives the same result after the per-token strip. -/
def joinCS : List (List Char) → List Char
  | [] => []
  | [c] => c
  | c :: rest => c ++ ',' :: ' ' :: joinCS rest

/-- Rejoin normalize_genres output into a comma-separated string. -/
def joinComma (ls : List String) : String := String.mk (joinCS (ls.map String.toList))

/-- The genre pipeline as the specification words it: the blacklist test and
the dictionary lookup use the lower-cased token (the token is already
stripped, so the further strip the code applies inside the loop is the only
difference from processTok). -/
def processTokSpec (g : List Char) : Option (List Char) :=
  if pyLowerL g ∈ GENRE_BLACKLIST then none
  else some ((canonLookup (pyLowerL g)).getD (pyTitleL g))

/-- Deduplicating accumulation over processTokSpec. -/
def addTokSpec (acc : List (List Char)) (g : List Char) : List (List Char) :=
  match processTokSpec g with
  | none => acc
  | some c => if c ∈ acc then acc else acc ++ [c]

/-- normalize_genres as the specification describes it, for the refinement
comparison: split on comma, trim, drop tokens whose lower-cased form is
blacklisted, map through the canonical dictionary by lower-cased form with a
title-cased fallback, deduplicate preserving first-seen order. -/
def normalize_genres_spec (raw : String) : List String :=
  if raw = "" then []
  else (((splitOnChar ',' raw.toList).map pyStripL).foldl addTokSpec []).map String.mk

/-! ## The record sort (app.py 276-300)

The enrichment loop stores STATUS (a determine_status value), the tally
numbers, and LAST_SEEN, which is parse_date applied to the date text of the
progress pointer: a datetime when strptime("%d-%m-%Y %H:%M:%S") succeeds and
None (NaT) otherwise.  The frame is then sorted by

    df.sort_values(by=["STATUS_ORDER", "LAST_SEEN"], ascending=[True, False])

with STATUS_ORDER the dict {"Watching": 0, "Not started": 1, "Completed": 2}
mapped over STATUS.  For a multi-column sort pandas ignores the kind argument
and uses a stable lexicographic sort; missing values go last within each key
(na_position defaults to "last"), regardless of the per-column direction.
The sort is modelled as a stable insertion sort on the lexicographic key
(status rank ascending, then timestamp descending with absent timestamps
last), which is exactly that specification. -/

/-- A datetime as produced by datetime.strptime("%d-%m-%Y %H:%M:%S"):
chronological comparison is lexicographic on
(year, month, day, hour, minute, second). -/
structure PyDatetime where
  year : ℕ
  month : ℕ
  day : ℕ
  hour : ℕ
  minute : ℕ
  second : ℕ
deriving DecidableEq, Repr

/-- Lexicographic key type of a datetime. -/
abbrev DateKey := ℕ ×ₗ (ℕ ×ₗ (ℕ ×ₗ (ℕ ×ₗ (ℕ ×ₗ ℕ))))

/-- Chronological key of a datetime. -/
def dtKey (d : PyDatetime) : DateKey :=
  toLex (d.year, toLex (d.month, toLex (d.day, toLex (d.hour,
    toLex (d.minute, d.second)))))

/-- Chronological order on datetimes, written out. -/
def dtLe (a b : PyDatetime) : Prop :=
  a.year < b.year ∨ (a.year = b.year ∧
    (a.month < b.month ∨ (a.month = b.month ∧
      (a.day < b.day ∨ (a.day = b.day ∧
        (a.hour < b.hour ∨ (a.hour = b.hour ∧
          (a.minute < b.minute ∨ (a.minute = b.minute ∧
            a.second ≤ b.second)))))))))

/-- One record of the enriched frame: the fields the sort keys read, plus the
name as representative payload (so that stability is observable). -/
structure EnrichedRecord where
  name : String
  watched : ℤ
  total : ℤ
  percent : ℚ
  status : ViewStatus
  lastSeen : Option PyDatetime
deriving DecidableEq, Repr

/-- The STATUS_ORDER dict of app.py line 294:
{"Watching": 0, "Not started": 1, "Completed": 2}. -/
def status_order : ViewStatus → ℕ
  | .watching => 0
  | .notStarted => 1
  | .completed => 2

/-- Type of the full sort key: status rank ascending, then LAST_SEEN with
descending direction (order dual) and missing timestamps last (⊤). -/
abbrev SortKey := ℕ ×ₗ (WithTop (OrderDual DateKey))

/-- The LAST_SEEN component of the sort key. -/
def tsKey : Option PyDatetime → WithTop (OrderDual DateKey)
  | none => ⊤
  | some d => (OrderDual.toDual (dtKey d) : OrderDual DateKey)

/-- The full sort key of a record. -/
def sortKeyOf (r : EnrichedRecord) : SortKey :=
  toLex (status_order r.status, tsKey r.lastSeen)

/-- Stable insertion of a record into an already sorted list: the new record
goes in front of the first record whose key is not strictly smaller, hence
behind every strictly smaller key and in front of every equal key, which is
what keeps the sort stable (sort_values inserts records from right to left,
so a record is inserted into a list containing only records that followed it
in the input). -/
def insertRec (x : EnrichedRecord) : List EnrichedRecord → List EnrichedRecord
  | [] => [x]
  | y :: ys => if sortKeyOf x ≤ sortKeyOf y then x :: y :: ys else y :: insertRec x ys

/-- The stable lexicographic sort performed by df.sort_values at app.py
297-300: insertion sort from the right, so each record is inserted before the
records with equal key that follow it in the input. -/
def sort_values : List EnrichedRecord → List EnrichedRecord
  | [] => []
  | x :: xs => insertRec x (sort_values xs)

/-- Relation used to express the sorted order of the claim: a record may be
placed before another when its status ranks strictly earlier
(Watching, then Not started, then Completed), or the statuses are equal and
the timestamps are in descending order, a missing timestamp coming after
every present one. -/
def recBefore (a b : EnrichedRecord) : Prop :=
  status_order a.status < status_order b.status ∨
  (a.status = b.status ∧
    match a.lastSeen, b.lastSeen with
    | some x, some y => dtLe y x
    | some _, none => True
    | none, some _ => False
    | none, none => True)

/-! ## Character lemmas -/

/-- Two characters with the same code point are equal. -/
theorem char_toNat_inj {a b : Char} (h : a.toNat = b.toNat) : a = b :=
  Char.eq_of_val_eq (UInt32.ext h)

/-- Char.ofNat is a left inverse of toNat on the letter range. -/
theorem char_ofNat_toNat {n : ℕ} (h1 : 65 ≤ n) (h2 : n ≤ 122) :
    (Char.ofNat n).toNat = n := by
  interval_cases n <;> rfl

/-- Code point of the lower-cased character. -/
theorem pyToLower_toNat (c : Char) :
    (pyToLower c).toNat =
      if 65 ≤ c.toNat ∧ c.toNat ≤ 90 then c.toNat + 32 else c.toNat := by
  unfold pyToLower
  split_ifs with h
  · exact char_ofNat_toNat (by omega) (by omega)
  · rfl

/-- Code point of the upper-cased character. -/
theorem pyToUpper_toNat (c : Char) :
    (pyToUpper c).toNat =
      if 97 ≤ c.toNat ∧ c.toNat ≤ 122 then c.toNat - 32 else c.toNat := by
  unfold pyToUpper
  split_ifs with h
  · exact char_ofNat_toNat (by omega) (by omega)
  · rfl

/-- Lower-casing twice is lower-casing once. -/
theorem pyToLower_pyToLower (c : Char) : pyToLower (pyToLower c) = pyToLower c :=
  char_toNat_inj (by simp only [pyToLower_toNat]; split_ifs <;> omega)

/-- Lower-casing an upper-cased character lower-cases the original. -/
theorem pyToLower_pyToUpper (c : Char) : pyToLower (pyToUpper c) = pyToLower c := by
  apply char_toNat_inj
  simp only [pyToLower_toNat, pyToUpper_toNat]
  split_ifs <;> omega

/-- Upper-casing twice is upper-casing once. -/
theorem pyToUpper_pyToUpper (c : Char) : pyToUpper (pyToUpper c) = pyToUpper c := by
  apply char_toNat_inj
  simp only [pyToUpper_toNat]
  split_ifs <;> omega

/-- Upper-casing a lower-cased character upper-cases the original. -/
theorem pyToUpper_pyToLower (c : Char) : pyToUpper (pyToLower c) = pyToUpper c := by
  apply char_toNat_inj
  simp only [pyToUpper_toNat, pyToLower_toNat]
  split_ifs <;> omega

/-- Case maps preserve whitespace status. -/
theorem pyIsSpace_pyToLower (c : Char) : pyIsSpace (pyToLower c) = pyIsSpace c := by
  unfold pyIsSpace
  rw [decide_eq_decide]
  simp only [pyToLower_toNat]
  split_ifs <;> omega

/-- Case maps preserve whitespace status. -/
theorem pyIsSpace_pyToUpper (c : Char) : pyIsSpace (pyToUpper c) = pyIsSpace c := by
  unfold pyIsSpace
  rw [decide_eq_decide]
  simp only [pyToUpper_toNat]
  split_ifs <;> omega

/-- Case maps preserve casedness. -/
theorem pyIsAlphaB_pyToLower (c : Char) : pyIsAlphaB (pyToLower c) = pyIsAlphaB c := by
  unfold pyIsAlphaB
  rw [decide_eq_decide]
  simp only [pyToLower_toNat]
  split_ifs <;> omega

/-- Case maps preserve casedness. -/
theorem pyIsAlphaB_pyToUpper (c : Char) : pyIsAlphaB (pyToUpper c) = pyIsAlphaB c := by
  unfold pyIsAlphaB
  rw [decide_eq_decide]
  simp only [pyToUpper_toNat]
  split_ifs <;> omega

/-- A character whose lower-case form is a comma is a comma. -/
theorem pyToLower_eq_comma {c : Char} (h : pyToLower c = ',') : c = ',' := by
  apply char_toNat_inj
  have h2 : (pyToLower c).toNat = 44 := by rw [h]; rfl
  rw [pyToLower_toNat] at h2
  have h3 : (',' : Char).toNat = 44 := rfl
  rw [h3]
  split_ifs at h2 <;> omega

/-- A character whose upper-case form is a comma is a comma. -/
theorem pyToUpper_eq_comma {c : Char} (h : pyToUpper c = ',') : c = ',' := by
  apply char_toNat_inj
  have h2 : (pyToUpper c).toNat = 44 := by rw [h]; rfl
  rw [pyToUpper_toNat] at h2
  have h3 : (',' : Char).toNat = 44 := rfl
  rw [h3]
  split_ifs at h2 <;> omega

/-! ## Strip and split lemmas -/

/-- A member not satisfying the predicate survives dropWhile. -/
theorem mem_dropWhile_of_mem {p : Char → Bool} {c : Char} {l : List Char}
    (h : c ∈ l) (hc : p c = false) : c ∈ l.dropWhile p := by
  induction l with
  | nil => cases h
  | cons a t ih =>
    rw [List.dropWhile_cons]
    rcases List.mem_cons.mp h with rfl | ht
    · rw [hc]
      simp
    · split_ifs with ha
      · exact ih ht
      · exact List.mem_cons_of_mem a ht

/-- dropWhile yields a subset. -/
theorem mem_of_mem_dropWhile {p : Char → Bool} {c : Char} {l : List Char}
    (h : c ∈ l.dropWhile p) : c ∈ l := by
  induction l with
  | nil => simp at h
  | cons a t ih =>
    rw [List.dropWhile_cons] at h
    split_ifs at h with ha
    · exact List.mem_cons_of_mem a (ih h)
    · exact h

/-- A non-whitespace member of a list survives the strip. -/
theorem mem_pyStripL_of_mem {c : Char} {l : List Char}
    (h : c ∈ l) (hc : pyIsSpace c = false) : c ∈ pyStripL l := by
  unfold pyStripL
  rw [List.mem_reverse]
  exact mem_dropWhile_of_mem (List.mem_reverse.mpr (mem_dropWhile_of_mem h hc)) hc

/-- Stripping yields a subset. -/
theorem mem_of_mem_pyStripL {c : Char} {l : List Char}
    (h : c ∈ pyStripL l) : c ∈ l := by
  unfold pyStripL at h
  rw [List.mem_reverse] at h
  exact mem_of_mem_dropWhile (List.mem_reverse.mp (mem_of_mem_dropWhile h))

/-- The head of a dropWhile result does not satisfy the predicate. -/
theorem head_dropWhile_false {p : Char → Bool} {l : List Char} {c : Char}
    (h : (l.dropWhile p).head? = some c) : p c = false := by
  induction l with
  | nil => simp at h
  | cons a t ih =>
    rw [List.dropWhile_cons] at h
    split_ifs at h with ha
    · exact ih h
    · simp at h
      subst h
      simpa using ha

/-- dropWhile keeps the last element when the result is nonempty. -/
theorem getLast?_dropWhile {p : Char → Bool} {l : List Char}
    (h : l.dropWhile p ≠ []) : (l.dropWhile p).getLast? = l.getLast? := by
  induction l with
  | nil => simp at h
  | cons a t ih =>
    rw [List.dropWhile_cons]
    rw [List.dropWhile_cons] at h
    split_ifs at h with ha
    · rw [if_pos ha, ih h]
      have ht : t ≠ [] := by
        intro he
        exact h (by simp [he])
      cases t with
      | nil => exact absurd rfl ht
      | cons b u => simp [List.getLast?_cons_cons]
    · rw [if_neg ha]

/-- A list is unchanged by dropWhile when its head fails the predicate. -/
theorem dropWhile_eq_self_of_head {p : Char → Bool} {l : List Char}
    (h : ∀ c, l.head? = some c → p c = false) : l.dropWhile p = l := by
  cases l with
  | nil => rfl
  | cons a t =>
    rw [List.dropWhile_cons, if_neg]
    simp [h a rfl]

/-- A list whose head and last character are not whitespace is already
stripped. -/
theorem pyStripL_eq_self {l : List Char}
    (hh : ∀ c, l.head? = some c → pyIsSpace c = false)
    (hl : ∀ c, l.getLast? = some c → pyIsSpace c = false) :
    pyStripL l = l := by
  unfold pyStripL
  rw [dropWhile_eq_self_of_head hh]
  rw [dropWhile_eq_self_of_head (by
    intro c hc
    rw [List.head?_reverse] at hc
    exact hl c hc)]
  exact List.reverse_reverse l

/-- The head of a stripped list is not whitespace. -/
theorem pyStripL_head {l : List Char} {c : Char}
    (h : (pyStripL l).head? = some c) : pyIsSpace c = false := by
  unfold pyStripL at h
  rw [List.head?_reverse] at h
  have hne : (l.dropWhile pyIsSpace).reverse.dropWhile pyIsSpace ≠ [] := by
    intro he
    rw [he] at h
    simp at h
  rw [getLast?_dropWhile hne, List.getLast?_reverse] at h
  exact head_dropWhile_false h

/-- The last character of a stripped list is not whitespace. -/
theorem pyStripL_getLast {l : List Char} {c : Char}
    (h : (pyStripL l).getLast? = some c) : pyIsSpace c = false := by
  unfold pyStripL at h
  rw [List.getLast?_reverse] at h
  exact head_dropWhile_false h

/-- Stripping is idempotent. -/
theorem pyStripL_idem (l : List Char) : pyStripL (pyStripL l) = pyStripL l :=
  pyStripL_eq_self (fun _ h => pyStripL_head h) (fun _ h => pyStripL_getLast h)

/-- Stripping a leading space strips the rest. -/
theorem pyStripL_cons_space (l : List Char) : pyStripL (' ' :: l) = pyStripL l := by
  unfold pyStripL
  rw [List.dropWhile_cons, if_pos (by rfl)]

/-- splitOnChar never returns the empty list of segments. -/
theorem splitOnChar_ne_nil (sep : Char) (l : List Char) : splitOnChar sep l ≠ [] := by
  cases l with
  | nil => simp [splitOnChar]
  | cons c cs =>
    unfold splitOnChar
    split_ifs
    · simp
    · cases h : splitOnChar sep cs <;> simp

/-- No segment of a split contains the separator. -/
theorem mem_splitOnChar_no_sep {sep : Char} {l part : List Char}
    (h : part ∈ splitOnChar sep l) : sep ∉ part := by
  induction l generalizing part with
  | nil =>
    simp [splitOnChar] at h
    simp [h]
  | cons c cs ih =>
    unfold splitOnChar at h
    split_ifs at h with hc
    · rcases List.mem_cons.mp h with rfl | ht
      · simp
      · exact ih ht
    · rcases hr : splitOnChar sep cs with _ | ⟨p, ps⟩
      · exact absurd hr (splitOnChar_ne_nil sep cs)
      · rw [hr] at h
        rcases List.mem_cons.mp h with rfl | ht
        · intro hm
          rcases List.mem_cons.mp hm with rfl | hp
          · exact hc rfl
          · exact ih (hr ▸ List.mem_cons_self p ps) hp
        · exact ih (hr ▸ List.mem_cons_of_mem p ht)

/-- Splitting a separator-free list yields that single segment. -/
theorem splitOnChar_of_no_sep {sep : Char} {l : List Char} (h : sep ∉ l) :
    splitOnChar sep l = [l] := by
  induction l with
  | nil => rfl
  | cons c cs ih =>
    unfold splitOnChar
    rw [if_neg (by rintro rfl; exact h (List.mem_cons_self c cs))]
    rw [ih (fun hm => h (List.mem_cons_of_mem c hm))]

/-- Unfolding equation of splitOnChar at a separator head. -/
theorem splitOnChar_cons_sep (sep : Char) (cs : List Char) :
    splitOnChar sep (sep :: cs) = [] :: splitOnChar sep cs := by
  simp [splitOnChar]

/-- Unfolding equation of splitOnChar at a non-separator head. -/
theorem splitOnChar_cons_ne {sep c : Char} (hc : c ≠ sep) {cs p : List Char}
    {ps : List (List Char)} (hr : splitOnChar sep cs = p :: ps) :
    splitOnChar sep (c :: cs) = (c :: p) :: ps := by
  simp [splitOnChar, hc, hr]

/-- Splitting at an explicit separator after a separator-free prefix. -/
theorem splitOnChar_append_sep {sep : Char} {a : List Char} (t : List Char)
    (h : sep ∉ a) : splitOnChar sep (a ++ sep :: t) = a :: splitOnChar sep t := by
  induction a with
  | nil =>
    simp only [List.nil_append]
    exact splitOnChar_cons_sep sep t
  | cons c a' ih =>
    have hc : c ≠ sep := by rintro rfl; exact h (List.mem_cons_self c a')
    have h' : sep ∉ a' := fun hm => h (List.mem_cons_of_mem c hm)
    simp only [List.cons_append]
    exact splitOnChar_cons_ne hc (ih h')

/-! ## Tally lemmas -/

/-- The accumulating fold of parse_season_episodes computes componentwise
sums of the per-segment contributions. -/
theorem tally_foldl_eq_sums (parts : List (List Char)) : ∀ a b : ℤ,
    parts.foldl (fun acc part => ((acc.1 + (tallySegment part).1 : ℤ),
      (acc.2 + (tallySegment part).2 : ℤ))) (a, b) =
    (a + (parts.map (fun p => (tallySegment p).1)).sum,
     b + (parts.map (fun p => (tallySegment p).2)).sum) := by
  induction parts with
  | nil => simp
  | cons p ps ih =>
    intro a b
    simp only [List.foldl_cons, List.map_cons, List.sum_cons, ih, Prod.mk.injEq]
    constructor <;> ring

/-- Away from the sentinel guard, parse_season_episodes returns the summed
segment contributions and their percentage. -/
theorem parse_season_episodes_eq_sums (s : String) (h1 : s ≠ "")
    (h2 : pyStripL s.toList ≠ "#N/A".toList) :
    parse_season_episodes s =
      (((splitOnChar '§' s.toList).map (fun p => (tallySegment p).1)).sum,
       ((splitOnChar '§' s.toList).map (fun p => (tallySegment p).2)).sum,
       tallyPercent
         (((splitOnChar '§' s.toList).map (fun p => (tallySegment p).1)).sum)
         (((splitOnChar '§' s.toList).map (fun p => (tallySegment p).2)).sum)) := by
  unfold parse_season_episodes
  rw [if_neg (by
    rintro (hs | hs)
    · exact h1 hs
    · exact h2 hs)]
  rw [tally_foldl_eq_sums]
  simp

/-- roundHalfEven n d is nonnegative when n is and d is positive. -/
theorem roundHalfEven_nonneg {n d : ℤ} (hn : 0 ≤ n) (hd : 0 < d) :
    0 ≤ roundHalfEven n d := by
  unfold roundHalfEven
  have hf : n.fdiv d = n / d := Int.fdiv_eq_ediv n (le_of_lt hd)
  have h0 : 0 ≤ n / d := Int.ediv_nonneg hn (le_of_lt hd)
  rw [hf]
  split_ifs <;> omega

/-- roundHalfEven n d is at most k when n is at most k * d. -/
theorem roundHalfEven_le {n d k : ℤ} (hd : 0 < d) (hn : n ≤ k * d) :
    roundHalfEven n d ≤ k := by
  unfold roundHalfEven
  have hf : n.fdiv d = n / d := Int.fdiv_eq_ediv n (le_of_lt hd)
  have h1 : n / d ≤ k := by
    calc n / d ≤ k * d / d := Int.ediv_le_ediv hd hn
    _ = k := Int.mul_ediv_cancel k (ne_of_gt hd)
  have hrem : n - n / d * d = n % d := by
    rw [Int.emod_def]
    ring
  have hrnn : 0 ≤ n % d := Int.emod_nonneg n (ne_of_gt hd)
  rw [hf]
  split_ifs with c1 c2 c3
  · exact h1
  · -- the carry cases: the remainder is positive, which rules out n / d = k
    rcases lt_or_eq_of_le h1 with h | h
    · omega
    · exfalso
      rw [h] at hrem c2
      omega
  · exact h1
  · rcases lt_or_eq_of_le h1 with h | h
    · omega
    · exfalso
      rw [h] at hrem c1
      omega

/-! ## Claim C3 -/

/-- C3: determine_status is a pure total function on (watched, total) pairs
mapping every tally to exactly one of three statuses: Completed if and only
if total > 0 and watched = total; otherwise Watching if and only if
watched > 0; otherwise NotStarted. -/
theorem claim_C3 : ∀ w t : ℤ,
    (determine_status w t = .completed ↔ 0 < t ∧ w = t) ∧
    (determine_status w t = .watching ↔ ((t ≤ 0 ∨ w < t ∨ t < w) ∧ 0 < w)) ∧
    (determine_status w t = .notStarted ↔ ((t ≤ 0 ∨ w < t ∨ t < w) ∧ w ≤ 0)) := by
  intro w t
  unfold determine_status
  split_ifs with h1 h2 <;> refine ⟨?_, ?_, ?_⟩ <;> simp <;> omega

/-! ## Claims C1, C6, C7 -/

/-- C1 counterexample: the claim predicts that the input "3/x", whose only
segment fails to parse (its total component "x" is not an integer, so the
segment is not successfully parsed), contributes nothing, giving (0, 0, 0.0);
the code adds the watched component before the failure and returns (3, 0, 0).
-/
theorem claim_C1_counterexample :
    parse_season_episodes "3/x" = (3, 0, 0) ∧
    pyInt "x".toList = none ∧
    parse_season_episodes "3/x" ≠ (0, 0, 0) := by
  refine ⟨by decide, by decide, by decide⟩

/-- C1 amended: away from the sentinel guard, decode_tally returns the
componentwise sums of per-segment contributions, where a segment contributes
its parsed watched value as soon as the split has arity two and the watched
component parses (even when the total component does not), and its total
value only when both parse; the percentage is 0 when total is not positive
and the half-even rounding of 100 * watched / total to one decimal otherwise;
sentinel or empty input gives (0, 0, 0.0); and
decode_tally("3/10§2/8") = (5, 18, 27.8). -/
theorem claim_C1_amended :
    (∀ s : String, s ≠ "" → pyStripL s.toList ≠ "#N/A".toList →
      parse_season_episodes s =
        (((splitOnChar '§' s.toList).map (fun p => (tallySegment p).1)).sum,
         ((splitOnChar '§' s.toList).map (fun p => (tallySegment p).2)).sum,
         tallyPercent
           (((splitOnChar '§' s.toList).map (fun p => (tallySegment p).1)).sum)
           (((splitOnChar '§' s.toList).map (fun p => (tallySegment p).2)).sum))) ∧
    (∀ s : String, s = "" ∨ pyStripL s.toList = "#N/A".toList →
      parse_season_episodes s = (0, 0, 0)) ∧
    (∀ w t : ℤ, t ≤ 0 → tallyPercent w t = 0) ∧
    parse_season_episodes "3/10§2/8" = (5, 18, 27.8) := by
  refine ⟨parse_season_episodes_eq_sums, ?_, ?_, ?_⟩
  · intro s hs
    unfold parse_season_episodes
    rw [if_pos hs]
  · intro w t ht
    unfold tallyPercent
    rw [if_neg (by omega)]
  · have h : (27.8 : ℚ) = mkRat 278 10 := by
      rw [Rat.mkRat_eq_div]
      norm_num
    rw [h]
    decide

/-- Witness for claim_C1_amended: its hypotheses are satisfiable, shown at
the concrete input "3/10§2/8". -/
theorem claim_C1_amended_witness :
    parse_season_episodes "3/10§2/8" =
      (((splitOnChar '§' "3/10§2/8".toList).map (fun p => (tallySegment p).1)).sum,
       ((splitOnChar '§' "3/10§2/8".toList).map (fun p => (tallySegment p).2)).sum,
       tallyPercent
         (((splitOnChar '§' "3/10§2/8".toList).map (fun p => (tallySegment p).1)).sum)
         (((splitOnChar '§' "3/10§2/8".toList).map (fun p => (tallySegment p).2)).sum)) ∧
    parse_season_episodes "" = (0, 0, 0) ∧
    tallyPercent 3 (-1) = 0 :=
  ⟨claim_C1_amended.1 "3/10§2/8" (by decide) (by decide),
   claim_C1_amended.2.1 "" (Or.inl rfl),
   claim_C1_amended.2.2.1 3 (-1) (by omega)⟩

/-- C6 counterexample: the claim says a segment that fails to parse
contributes nothing to either count.  In "7/§5/5" the segment "7/" fails
(its total component is empty), yet the result is (12, 5, 240.0): the failed
segment contributed 7 to watched.  Under the claim the result would have
been (5, 5, 100.0). -/
theorem claim_C6_counterexample :
    parse_season_episodes "7/§5/5" = (12, 5, 240) ∧
    pyInt "".toList = none ∧
    parse_season_episodes "7/§5/5" ≠ (5, 5, 100) := by
  refine ⟨by decide, by decide, by decide⟩

/-- C6 amended: a segment is skipped in its entirety when its slash split
does not have exactly two pieces or when its watched component fails to
parse; when the watched component parses and the total component fails, the
segment contributes its watched value and nothing to total; no failure is
fatal, and decode_tally("3/10§bad") = (3, 10, 30.0) since the malformed
segment "bad" has the wrong arity and is skipped entirely. -/
theorem claim_C6_amended :
    parse_season_episodes "3/10§bad" = (3, 10, 30) ∧
    (∀ p : List Char, (splitOnChar '/' p).length ≠ 2 → tallySegment p = (0, 0)) ∧
    (∀ p a b : List Char, splitOnChar '/' p = [a, b] → pyInt a = none →
      tallySegment p = (0, 0)) ∧
    (∀ (p a b : List Char) (w : ℤ), splitOnChar '/' p = [a, b] →
      pyInt a = some w → pyInt b = none → tallySegment p = (w, 0)) := by
  refine ⟨by decide, ?_, ?_, ?_⟩
  · intro p hp
    unfold tallySegment
    rcases h : splitOnChar '/' p with _ | ⟨a, _ | ⟨b, _ | ⟨c, r⟩⟩⟩ <;> simp
    exact absurd (by rw [h]; rfl) hp
  · intro p a b hab ha
    simp [tallySegment, hab, ha]
  · intro p a b w hab ha hb
    simp [tallySegment, hab, ha, hb]

/-- Witness for claim_C6_amended: its hypotheses are satisfiable at the
concrete segments "bad" (arity failure), "x/y" (watched parse failure) and
"3/x" (total parse failure). -/
theorem claim_C6_amended_witness :
    tallySegment "bad".toList = (0, 0) ∧
    tallySegment "x/y".toList = (0, 0) ∧
    tallySegment "3/x".toList = (3, 0) :=
  ⟨claim_C6_amended.2.1 "bad".toList (by decide),
   claim_C6_amended.2.2.1 "x/y".toList "x".toList "y".toList (by decide) (by decide),
   claim_C6_amended.2.2.2 "3/x".toList "3".toList "x".toList 3 (by decide)
     (by decide) (by decide)⟩

/-- C7 counterexample: the claimed invariant watched ≥ 0, total ≥ 0 and
percentage in [0, 100] fails: Python int() accepts negative numbers, so
decode_tally("-1/1") = (-1, 1, -100.0). -/
theorem claim_C7_counterexample :
    parse_season_episodes "-1/1" = (-1, 1, -100) ∧
    (parse_season_episodes "-1/1").1 < 0 ∧
    (parse_season_episodes "-1/1").2.2 < 0 := by
  refine ⟨by decide, by decide, by decide⟩

/-- The third component of parse_season_episodes is always the percentage of
the first two (the sentinel branch returns 0, which is tallyPercent 0 0). -/
theorem parse_season_episodes_percent (s : String) :
    (parse_season_episodes s).2.2 =
      tallyPercent (parse_season_episodes s).1 (parse_season_episodes s).2.1 := by
  unfold parse_season_episodes
  split_ifs with h
  · simp [tallyPercent]
  · rfl

/-- Bounds of the percentage under the well-formedness hypothesis
0 ≤ watched ≤ total. -/
theorem tallyPercent_bounds {w t : ℤ} (hw : 0 ≤ w) (hwt : w ≤ t) :
    0 ≤ tallyPercent w t ∧ tallyPercent w t ≤ 100 := by
  unfold tallyPercent
  split_ifs with ht
  · have hk0 : 0 ≤ roundHalfEven (1000 * w) t :=
      roundHalfEven_nonneg (by omega) ht
    have hk1 : roundHalfEven (1000 * w) t ≤ 1000 :=
      roundHalfEven_le ht (by omega)
    rw [Rat.mkRat_eq_div]
    constructor
    · apply div_nonneg _ (by norm_num)
      exact_mod_cast hk0
    · rw [div_le_iff₀ (by norm_num)]
      push_cast
      have : ((roundHalfEven (1000 * w) t : ℤ) : ℚ) ≤ (1000 : ℚ) := by
        exact_mod_cast hk1
      linarith
  · norm_num

/-- C7 amended: the invariant holds on well-formed data: whenever the
computed watched count is nonnegative and at most the computed total count,
all of watched ≥ 0, total ≥ 0 and percentage in [0, 100] hold; in general
negative segment numbers and partially parsed segments can drive every
component outside those bounds. -/
theorem claim_C7_amended (s : String)
    (hw : 0 ≤ (parse_season_episodes s).1)
    (hwt : (parse_season_episodes s).1 ≤ (parse_season_episodes s).2.1) :
    0 ≤ (parse_season_episodes s).1 ∧
    0 ≤ (parse_season_episodes s).2.1 ∧
    0 ≤ (parse_season_episodes s).2.2 ∧
    (parse_season_episodes s).2.2 ≤ 100 := by
  have hp := parse_season_episodes_percent s
  have hb := tallyPercent_bounds hw hwt
  rw [hp] at *
  exact ⟨hw, le_trans hw hwt, hb.1, hb.2⟩

/-- Witness for claim_C7_amended: its hypotheses are satisfiable, shown at
the concrete input "3/10". -/
theorem claim_C7_amended_witness :
    0 ≤ (parse_season_episodes "3/10").2.2 ∧
    (parse_season_episodes "3/10").2.2 ≤ 100 :=
  ⟨(claim_C7_amended "3/10" (by decide) (by decide)).2.2.1,
   (claim_C7_amended "3/10" (by decide) (by decide)).2.2.2⟩

/-! ## Progress parser lemmas -/

/-- A successful pattern match starts with the literal S. -/
theorem progMatchFrom_S {l : List Char} {r : ℕ × ℕ × List Char}
    (h : progMatchFrom l = some r) : ∃ t, l = 'S' :: t := by
  rcases l with _ | ⟨c, _ | ⟨d1, _ | ⟨d2, _ | ⟨e, _ | ⟨e1, _ | ⟨e2, rest⟩⟩⟩⟩⟩⟩
  · simp [progMatchFrom] at h
  · simp [progMatchFrom] at h
  · simp [progMatchFrom] at h
  · simp [progMatchFrom] at h
  · simp [progMatchFrom] at h
  · simp [progMatchFrom] at h
  · simp only [progMatchFrom] at h
    split_ifs at h with hc
    exact ⟨d1 :: d2 :: e :: e1 :: e2 :: rest, by rw [hc.1]⟩

/-- A successful search means the text contains the literal S. -/
theorem pyProgSearch_S {l : List Char} {r : ℕ × ℕ × List Char}
    (h : pyProgSearch l = some r) : 'S' ∈ l := by
  induction l with
  | nil => simp [pyProgSearch, progMatchFrom] at h
  | cons c cs ih =>
    unfold pyProgSearch at h
    cases hm : progMatchFrom (c :: cs) with
    | some r2 =>
      obtain ⟨t, ht⟩ := progMatchFrom_S hm
      rw [List.cons.injEq] at ht
      rw [ht.1]
      exact List.mem_cons_self 'S' cs
    | none =>
      rw [hm] at h
      exact List.mem_cons_of_mem c (ih h)

/-- The search fails on all-whitespace text. -/
theorem pyProgSearch_none_of_space {l : List Char}
    (h : ∀ c ∈ l, pyIsSpace c = true) : pyProgSearch l = none := by
  induction l with
  | nil => rfl
  | cons c cs ih =>
    have hm : progMatchFrom (c :: cs) = none := by
      cases hm : progMatchFrom (c :: cs) with
      | none => rfl
      | some r =>
        obtain ⟨t, ht⟩ := progMatchFrom_S hm
        rw [List.cons.injEq] at ht
        have hc := h c (List.mem_cons_self c cs)
        rw [ht.1] at hc
        exact absurd hc (by decide)
    unfold pyProgSearch
    rw [hm]
    exact ih (fun a ha => h a (List.mem_cons_of_mem c ha))

/-- Stripping all-whitespace text gives the empty list. -/
theorem pyStripL_of_space {l : List Char}
    (h : ∀ c ∈ l, pyIsSpace c = true) : pyStripL l = [] := by
  unfold pyStripL
  rw [List.dropWhile_eq_nil_iff.mpr h]
  rfl

/-- The search fails on text that strips to the sentinel. -/
theorem pyProgSearch_none_of_sentinel {l : List Char}
    (h : pyStripL l = "#N/A".toList) : pyProgSearch l = none := by
  cases hm : pyProgSearch l with
  | none => rfl
  | some r =>
    have hS : 'S' ∈ pyStripL l := mem_pyStripL_of_mem (pyProgSearch_S hm) (by decide)
    rw [h] at hS
    exact absurd hS (by decide)

/-- The recursive search returns the match at the least matching position. -/
theorem pyProgSearch_eq_find (l : List Char)
    (h : ∃ n, (progMatchFrom (l.drop n)).isSome = true) :
    pyProgSearch l = progMatchFrom (l.drop (Nat.find h)) := by
  induction l with
  | nil =>
    exfalso
    obtain ⟨n, hn⟩ := h
    rw [List.drop_nil] at hn
    simp [progMatchFrom] at hn
  | cons c cs ih =>
    cases hm : progMatchFrom (c :: cs) with
    | some r =>
      have hfind : Nat.find h = 0 := by
        rw [Nat.find_eq_zero]
        simp [hm]
      rw [hfind, List.drop_zero, hm]
      unfold pyProgSearch
      rw [hm]
    | none =>
      have h' : ∃ n, (progMatchFrom (cs.drop n)).isSome = true := by
        obtain ⟨n, hn⟩ := h
        cases n with
        | zero =>
          rw [List.drop_zero, hm] at hn
          simp at hn
        | succ m => exact ⟨m, by simpa using hn⟩
      have hfind : Nat.find h = Nat.find h' + 1 := by
        rw [Nat.find_eq_iff]
        constructor
        · simpa using Nat.find_spec h'
        · intro m hm2
          cases m with
          | zero => simp [hm]
          | succ k =>
            have hk : k < Nat.find h' := by omega
            simpa using Nat.find_min h' hk
      rw [hfind]
      unfold pyProgSearch
      rw [hm, ih h']
      simp

/-! ## Claims C4, C5, C10 -/

/-- C4: on non-empty, non-whitespace, non-sentinel input, decode_progress
returns the parsed pointer (two-digit season and episode as base-10 integers,
raw trailing text) exactly when the search pattern matches, the all-absent
unparseable result otherwise, the two failure tags stay distinct, and the
worked example parses; leading zeros are permitted (second example). -/
theorem claim_C4 :
    (∀ s : String, s ≠ "" → (∃ c ∈ s.toList, pyIsSpace c = false) →
        pyStripL s.toList ≠ "#N/A".toList →
      (∀ se ep g3, pyProgSearch s.toList = some (se, ep, g3) →
        parse_progress s = .watching se ep (String.mk g3)) ∧
      (pyProgSearch s.toList = none → parse_progress s = .unknown) ∧
      ProgressResult.unknown ≠ ProgressResult.notStarted) ∧
    parse_progress "S03E07 ←-→ 01-02-2024 10:00:00" =
      .watching 3 7 "01-02-2024 10:00:00" ∧
    parse_progress "S01E07 ←-→ x" = .watching 1 7 "x" := by
  refine ⟨?_, by decide, by decide⟩
  intro s hne _ hsent
  have hguard : ¬(s = "" ∨ pyStripL s.toList = "#N/A".toList) := by
    rintro (h | h)
    · exact hne h
    · exact hsent h
  refine ⟨?_, ?_, by decide⟩
  · intro se ep g3 hs
    unfold parse_progress
    rw [if_neg hguard, hs]
  · intro hs
    unfold parse_progress
    rw [if_neg hguard, hs]

/-- Witness for claim_C4: its hypotheses are satisfiable at the worked
example. -/
theorem claim_C4_witness :
    parse_progress "S03E07 ←-→ 01-02-2024 10:00:00" =
      .watching 3 7 "01-02-2024 10:00:00" :=
  (claim_C4.1 "S03E07 ←-→ 01-02-2024 10:00:00" (by decide) (by decide)
    (by decide)).1 3 7 "01-02-2024 10:00:00".toList (by decide)

/-- C5 counterexample: the claim says whitespace-only input yields the
not-started pointer, but a whitespace-only string is truthy in Python and
does not strip to the sentinel, so it falls through to the regex, which
fails: parse_progress(" ") is the unparseable result, not the not-started
one. -/
theorem claim_C5_counterexample :
    parse_progress " " = .unknown ∧ parse_progress " " ≠ .notStarted := by
  refine ⟨by decide, by decide⟩

/-- C5 amended: empty input, or input that strips to the sentinel "#N/A",
yields the all-absent not-started pointer; non-empty whitespace-only input
instead yields the all-absent pointer tagged unparseable. -/
theorem claim_C5_amended :
    (∀ s : String, s = "" ∨ pyStripL s.toList = "#N/A".toList →
      parse_progress s = .notStarted) ∧
    (∀ s : String, s ≠ "" → (∀ c ∈ s.toList, pyIsSpace c = true) →
      parse_progress s = .unknown) ∧
    parse_progress "" = .notStarted ∧ parse_progress "#N/A" = .notStarted := by
  refine ⟨?_, ?_, by decide, by decide⟩
  · intro s hs
    unfold parse_progress
    rw [if_pos hs]
  · intro s hne hsp
    unfold parse_progress
    rw [if_neg (by
      rintro (h | h)
      · exact hne h
      · rw [pyStripL_of_space hsp] at h
        exact absurd h (by decide))]
    rw [pyProgSearch_none_of_space hsp]

/-- Witness for claim_C5_amended: its hypotheses are satisfiable at the
sentinel (padded with whitespace, which the guard strips) and at a
whitespace-only string. -/
theorem claim_C5_amended_witness :
    parse_progress " #N/A " = .notStarted ∧ parse_progress " " = .unknown :=
  ⟨claim_C5_amended.1 " #N/A " (Or.inr (by decide)),
   claim_C5_amended.2.1 " " (by decide) (by decide)⟩

/-- C10: the pattern is matched by unanchored substring search, so whenever
it matches at any position, including after arbitrary junk, decode_progress
returns the parsed pointer of the leftmost match (the match at the least
matching start position), never the unparseable or not-started result. -/
theorem claim_C10 (s : String)
    (h : ∃ n, (progMatchFrom (s.toList.drop n)).isSome = true) :
    pyProgSearch s.toList = progMatchFrom (s.toList.drop (Nat.find h)) ∧
    (∃ se ep d, parse_progress s = .watching se ep d) ∧
    parse_progress s ≠ .unknown ∧ parse_progress s ≠ .notStarted := by
  have hsearch := pyProgSearch_eq_find s.toList h
  have hspec := Nat.find_spec h
  obtain ⟨r, hr⟩ : ∃ r, pyProgSearch s.toList = some r := by
    rw [hsearch]
    cases hpm : progMatchFrom (s.toList.drop (Nat.find h)) with
    | none => rw [hpm] at hspec; simp at hspec
    | some r => exact ⟨r, rfl⟩
  have hne : s ≠ "" := by
    rintro rfl
    obtain ⟨n, hn⟩ := h
    rw [show ("" : String).toList = [] from rfl, List.drop_nil] at hn
    simp [progMatchFrom] at hn
  have hsent : pyStripL s.toList ≠ "#N/A".toList := by
    intro hs
    rw [pyProgSearch_none_of_sentinel hs] at hr
    exact Option.noConfusion hr
  obtain ⟨se, ep, g3⟩ := r
  have hpp : parse_progress s = .watching se ep (String.mk g3) := by
    unfold parse_progress
    rw [if_neg (by rintro (h' | h'); exacts [hne h', hsent h']), hr]
  refine ⟨hsearch, ⟨se, ep, String.mk g3, hpp⟩, ?_, ?_⟩
  · rw [hpp]; simp
  · rw [hpp]; simp

/-- Witness for claim_C10: its hypothesis is satisfiable at a string whose
pattern occurrence follows a non-empty junk prefix. -/
theorem claim_C10_witness :
    (∃ n, (progMatchFrom (("junk S01E02 ←-→ x".toList).drop n)).isSome = true) ∧
    parse_progress "junk S01E02 ←-→ x" ≠ .unknown :=
  ⟨⟨5, by decide⟩, (claim_C10 "junk S01E02 ←-→ x" ⟨5, by decide⟩).2.2.1⟩

/-! ## Sort lemmas -/

/-- status_order is injective. -/
theorem status_order_inj (a b : ViewStatus) :
    status_order a = status_order b ↔ a = b := by
  cases a <;> cases b <;> decide

/-- The datetime key order is the chronological order. -/
theorem dtKey_le_iff (a b : PyDatetime) : dtKey a ≤ dtKey b ↔ dtLe a b := by
  unfold dtKey dtLe
  simp [Prod.Lex.le_iff]

/-- recBefore is exactly the comparison of full sort keys. -/
theorem recBefore_iff (a b : EnrichedRecord) :
    recBefore a b ↔ sortKeyOf a ≤ sortKeyOf b := by
  unfold recBefore sortKeyOf tsKey
  rw [Prod.Lex.le_iff]
  rcases ha : a.lastSeen with _ | x <;> rcases hb : b.lastSeen with _ | y <;>
    simp [status_order_inj, WithTop.top_le_iff, le_top, WithTop.coe_le_coe,
          dtKey_le_iff]

/-- Inserting is a permutation of consing. -/
theorem insertRec_perm (x : EnrichedRecord) (l : List EnrichedRecord) :
    (insertRec x l).Perm (x :: l) := by
  induction l with
  | nil => exact List.Perm.refl _
  | cons y ys ih =>
    unfold insertRec
    split_ifs with h
    · exact List.Perm.refl _
    · exact (ih.cons y).trans (List.Perm.swap x y ys)

/-- The sort is a permutation of its input. -/
theorem sort_values_perm (l : List EnrichedRecord) : (sort_values l).Perm l := by
  induction l with
  | nil => exact List.Perm.refl _
  | cons x xs ih =>
    exact (insertRec_perm x (sort_values xs)).trans (ih.cons x)

/-- Inserting into a key-sorted list keeps it key-sorted. -/
theorem insertRec_pairwise {x : EnrichedRecord} {l : List EnrichedRecord}
    (h : l.Pairwise (fun a b => sortKeyOf a ≤ sortKeyOf b)) :
    (insertRec x l).Pairwise (fun a b => sortKeyOf a ≤ sortKeyOf b) := by
  induction l with
  | nil => simp [insertRec]
  | cons y ys ih =>
    rw [List.pairwise_cons] at h
    unfold insertRec
    split_ifs with hxy
    · rw [List.pairwise_cons]
      refine ⟨?_, List.pairwise_cons.mpr h⟩
      intro z hz
      rcases List.mem_cons.mp hz with rfl | hz'
      · exact hxy
      · exact le_trans hxy (h.1 z hz')
    · rw [List.pairwise_cons]
      refine ⟨?_, ih h.2⟩
      intro z hz
      rcases List.mem_cons.mp ((insertRec_perm x ys).mem_iff.mp hz) with rfl | hz'
      · exact le_of_not_le hxy
      · exact h.1 z hz'

/-- The sort output is key-sorted. -/
theorem sort_values_pairwise (l : List EnrichedRecord) :
    (sort_values l).Pairwise (fun a b => sortKeyOf a ≤ sortKeyOf b) := by
  induction l with
  | nil => simp [sort_values]
  | cons x xs ih => exact insertRec_pairwise ih

/-- Filtering by a predicate that only holds at the inserted record's key
sees the inserted record first: the insertion point is past only records
with strictly smaller keys, which the predicate rejects. -/
theorem filter_insertRec_of_eq {x : EnrichedRecord} {q : EnrichedRecord → Bool}
    (hq : q x = true) (hkey : ∀ y, q y = true → sortKeyOf y = sortKeyOf x) :
    ∀ l : List EnrichedRecord, (insertRec x l).filter q = x :: l.filter q := by
  intro l
  induction l with
  | nil => simp [insertRec, hq]
  | cons y ys ih =>
    unfold insertRec
    split_ifs with hxy
    · rw [List.filter_cons_of_pos hq]
    · have hqy : q y = false := by
        cases hqy : q y
        · rfl
        · exact absurd (le_of_eq (hkey y hqy).symm) hxy
      rw [List.filter_cons_of_neg (by simp [hqy]), ih,
          List.filter_cons_of_neg (by simp [hqy])]

/-- Filtering by a predicate rejecting the inserted record ignores it. -/
theorem filter_insertRec_of_ne {x : EnrichedRecord} {q : EnrichedRecord → Bool}
    (hq : q x = false) :
    ∀ l : List EnrichedRecord, (insertRec x l).filter q = l.filter q := by
  intro l
  induction l with
  | nil => simp [insertRec, hq]
  | cons y ys ih =>
    unfold insertRec
    split_ifs with hxy
    · rw [List.filter_cons_of_neg (by simp [hq])]
    · simp only [List.filter_cons, ih]

/-- The sort is stable: records with any fixed sort key keep their input
order. -/
theorem sort_values_stable (l : List EnrichedRecord) (st : ViewStatus)
    (ts : Option PyDatetime) :
    (sort_values l).filter (fun r => decide (r.status = st ∧ r.lastSeen = ts)) =
    l.filter (fun r => decide (r.status = st ∧ r.lastSeen = ts)) := by
  induction l with
  | nil => rfl
  | cons x xs ih =>
    unfold sort_values
    cases hqx : (fun r => decide (r.status = st ∧ r.lastSeen = ts)) x with
    | false =>
      rw [filter_insertRec_of_ne hqx, ih,
          List.filter_cons_of_neg (by simp [hqx])]
    | true =>
      rw [filter_insertRec_of_eq hqx ?_, ih]
      · exact (List.filter_cons_of_pos
          (p := fun (r : EnrichedRecord) => decide (r.status = st ∧ r.lastSeen = ts)) hqx).symm
      intro y hy
      have hx' := of_decide_eq_true hqx
      have hy' := of_decide_eq_true hy
      unfold sortKeyOf
      rw [hx'.1, hx'.2, hy'.1, hy'.2]

/-- C2: for every sequence of enriched records, the enricher's sort emits a
permutation of its input that is ordered first by status with Watching before
Not started before Completed (the status_order ranks are strictly
increasing in that order), then within equal status descending by parsed
last-seen timestamp with absent timestamps after all present ones, and it is
stable: records with fully equal sort keys (status and timestamp) retain
their relative input order. -/
theorem claim_C2 : ∀ l : List EnrichedRecord,
    (sort_values l).Perm l ∧
    (sort_values l).Pairwise recBefore ∧
    (∀ (st : ViewStatus) (ts : Option PyDatetime),
      (sort_values l).filter (fun r => decide (r.status = st ∧ r.lastSeen = ts)) =
      l.filter (fun r => decide (r.status = st ∧ r.lastSeen = ts))) ∧
    status_order .watching < status_order .notStarted ∧
    status_order .notStarted < status_order .completed := by
  intro l
  refine ⟨sort_values_perm l, ?_, fun st ts => sort_values_stable l st ts,
    by decide, by decide⟩
  exact (sort_values_pairwise l).imp (fun h => (recBefore_iff _ _).mpr h)

/-! ## Genre lemmas -/

/-- Lower-casing commutes with stripping (case maps preserve whitespace). -/
theorem pyStripL_pyLowerL (l : List Char) :
    pyStripL (pyLowerL l) = pyLowerL (pyStripL l) := by
  have hp : (pyIsSpace ∘ pyToLower) = pyIsSpace := funext pyIsSpace_pyToLower
  unfold pyStripL pyLowerL
  rw [List.dropWhile_map, hp, ← List.map_reverse, List.dropWhile_map, hp,
      ← List.map_reverse]

/-- On an already stripped token the loop key is just the lower-cased token.
-/
theorem genreKey_of_stripped {g : List Char} (hg : pyStripL g = g) :
    genreKey g = pyLowerL g := by
  unfold genreKey
  rw [pyStripL_pyLowerL, hg]

/-- On stripped tokens the code's per-token step agrees with the
specification's wording. -/
theorem processTok_eq_spec {g : List Char} (hg : pyStripL g = g) :
    processTok g = processTokSpec g := by
  unfold processTok processTokSpec
  rw [genreKey_of_stripped hg]

/-- On stripped tokens the accumulating steps agree. -/
theorem addTok_eq_spec {g : List Char} (hg : pyStripL g = g)
    (acc : List (List Char)) : addTok acc g = addTokSpec acc g := by
  unfold addTok addTokSpec
  rw [processTok_eq_spec hg]

/-- Folding the two steps over stripped tokens agrees. -/
theorem foldl_addTok_eq_spec (toks : List (List Char))
    (h : ∀ g ∈ toks, pyStripL g = g) :
    ∀ acc, toks.foldl addTok acc = toks.foldl addTokSpec acc := by
  induction toks with
  | nil => intro acc; rfl
  | cons g gs ih =>
    intro acc
    simp only [List.foldl_cons]
    rw [addTok_eq_spec (h g (List.mem_cons_self g gs)) acc]
    exact ih (fun g' hg' => h g' (List.mem_cons_of_mem g hg')) _

/-! ## Claim C8 -/

/-- C8: normalize_genres coincides on every input with the pipeline as the
specification words it (split on comma, trim each token, drop tokens whose
lower-cased form is blacklisted, map the remaining tokens through the
canonical dictionary by lower-cased form with a title-cased fallback,
deduplicate by canonical value preserving first-seen order), and the worked
example holds. -/
theorem claim_C8 :
    (∀ s : String, normalize_genres s = normalize_genres_spec s) ∧
    normalize_genres "Sci-Fi, scifi, Delete, " = ["Sci-Fi"] := by
  refine ⟨?_, by decide⟩
  intro s
  unfold normalize_genres normalize_genres_spec normCore
  split_ifs with hs
  · rfl
  · rw [foldl_addTok_eq_spec]
    intro g hg
    obtain ⟨p, hp, rfl⟩ := List.mem_map.mp hg
    exact pyStripL_idem p

/-- Lower-casing after title-casing is lower-casing. -/
theorem pyLowerL_pyTitleGo (l : List Char) : ∀ b,
    pyLowerL (pyTitleGo b l) = pyLowerL l := by
  induction l with
  | nil => intro b; rfl
  | cons c cs ih =>
    intro b
    unfold pyTitleGo
    simp only [pyLowerL, List.map_cons] at *
    rw [ih]
    cases b
    · simp [pyToLower_pyToUpper]
    · simp [pyToLower_pyToLower]

/-- Title-casing is idempotent (for either starting state). -/
theorem pyTitleGo_idem (l : List Char) : ∀ b,
    pyTitleGo b (pyTitleGo b l) = pyTitleGo b l := by
  induction l with
  | nil => intro b; rfl
  | cons c cs ih =>
    intro b
    cases b
    · show pyTitleGo false (pyToUpper c :: pyTitleGo (pyIsAlphaB c) cs) = _
      unfold pyTitleGo
      rw [pyToUpper_pyToUpper, pyIsAlphaB_pyToUpper, ih]
      simp
    · show pyTitleGo true (pyToLower c :: pyTitleGo (pyIsAlphaB c) cs) = _
      unfold pyTitleGo
      rw [pyToLower_pyToLower, pyIsAlphaB_pyToLower, ih]
      simp

/-- Title-casing preserves length. -/
theorem length_pyTitleGo (l : List Char) : ∀ b,
    (pyTitleGo b l).length = l.length := by
  induction l with
  | nil => intro b; rfl
  | cons c cs ih =>
    intro b
    unfold pyTitleGo
    simp [ih]

/-- Every character of a title-cased list is a case variant of a character
of the original. -/
theorem mem_pyTitleGo {l : List Char} {c' : Char} : ∀ b, c' ∈ pyTitleGo b l →
    ∃ c ∈ l, c' = pyToLower c ∨ c' = pyToUpper c := by
  induction l with
  | nil => intro b h; simp [pyTitleGo] at h
  | cons c cs ih =>
    intro b h
    unfold pyTitleGo at h
    rcases List.mem_cons.mp h with h1 | h1
    · refine ⟨c, List.mem_cons_self c cs, ?_⟩
      cases b
      · right; exact h1
      · left; exact h1
    · obtain ⟨d, hd, hcase⟩ := ih (pyIsAlphaB c) h1
      exact ⟨d, List.mem_cons_of_mem c hd, hcase⟩

/-- Title-casing preserves the whitespace profile. -/
theorem map_pyIsSpace_pyTitleGo (l : List Char) : ∀ b,
    (pyTitleGo b l).map pyIsSpace = l.map pyIsSpace := by
  induction l with
  | nil => intro b; rfl
  | cons c cs ih =>
    intro b
    unfold pyTitleGo
    simp only [List.map_cons, ih]
    cases b
    · simp [pyIsSpace_pyToUpper]
    · simp [pyIsSpace_pyToLower]

/-- Title-casing a stripped token yields a stripped token. -/
theorem pyStripL_pyTitleL_of_stripped {g : List Char} (hg : pyStripL g = g) :
    pyStripL (pyTitleL g) = pyTitleL g := by
  apply pyStripL_eq_self
  · intro c hc
    have hmap : (pyTitleL g).map pyIsSpace = g.map pyIsSpace :=
      map_pyIsSpace_pyTitleGo g false
    have h1 : ((pyTitleL g).map pyIsSpace).head? = some (pyIsSpace c) := by
      rw [List.head?_map, hc]
      rfl
    rw [hmap, List.head?_map] at h1
    cases hg0 : g.head? with
    | none => rw [hg0] at h1; simp at h1
    | some c0 =>
      rw [hg0] at h1
      have h2 : pyIsSpace c0 = pyIsSpace c := by simpa using h1
      rw [← h2]
      exact pyStripL_head (l := g) (by rw [hg, hg0])
  · intro c hc
    have hmap : (pyTitleL g).map pyIsSpace = g.map pyIsSpace :=
      map_pyIsSpace_pyTitleGo g false
    have h1 : ((pyTitleL g).map pyIsSpace).getLast? = some (pyIsSpace c) := by
      rw [List.getLast?_map, hc]
      rfl
    rw [hmap, List.getLast?_map] at h1
    cases hg0 : g.getLast? with
    | none => rw [hg0] at h1; simp at h1
    | some c0 =>
      rw [hg0] at h1
      have h2 : pyIsSpace c0 = pyIsSpace c := by simpa using h1
      rw [← h2]
      exact pyStripL_getLast (l := g) (by rw [hg, hg0])

/-- Every value of the canonical table is a fixed point of the per-token
step, comma-free, stripped and nonempty (checked by evaluation over the 44
entries). -/
theorem canon_values_fixed :
    ∀ p ∈ GENRE_CANONICAL, processTok p.2.toList = some p.2.toList ∧
      (',' ∉ p.2.toList) ∧ pyStripL p.2.toList = p.2.toList ∧ p.2.toList ≠ [] := by
  decide

/-- The empty key is blacklisted, so a processed token is nonempty. -/
theorem processTok_ne_nil {g : List Char} {c : List Char}
    (h : processTok g = some c) : g ≠ [] := by
  rintro rfl
  unfold processTok genreKey at h
  simp [pyStripL, pyLowerL, GENRE_BLACKLIST] at h

/-- A label emitted by the per-token step is itself a fixed point of the
step, comma-free, stripped and nonempty, provided the token was comma-free
and stripped.  Labels from the canonical table are checked by evaluation;
fallback labels are title-cased tokens, whose key is unchanged (lower-case
absorbs title-case) and whose title-casing is idempotent. -/
theorem processTok_good {g c : List Char} (hcomma : ',' ∉ g)
    (hg : pyStripL g = g) (h : processTok g = some c) :
    processTok c = some c ∧ (',' ∉ c) ∧ pyStripL c = c ∧ c ≠ [] := by
  have hgne : g ≠ [] := processTok_ne_nil h
  unfold processTok at h
  split_ifs at h with hbl
  have hc : (canonLookup (genreKey g)).getD (pyTitleL g) = c := Option.some.inj h
  cases hcl : canonLookup (genreKey g) with
  | some v =>
    rw [hcl] at hc
    simp only [Option.getD_some] at hc
    subst hc
    unfold canonLookup at hcl
    cases hf : GENRE_CANONICAL.find? (fun p => decide (p.1.toList = genreKey g)) with
    | none => rw [hf] at hcl; simp at hcl
    | some pr =>
      rw [hf] at hcl
      simp only [Option.some.injEq] at hcl
      subst hcl
      exact canon_values_fixed pr (List.mem_of_find?_eq_some hf)
  | none =>
    rw [hcl] at hc
    simp only [Option.getD_none] at hc
    subst hc
    have hkey : genreKey (pyTitleL g) = genreKey g := by
      unfold genreKey
      unfold pyTitleL
      rw [pyLowerL_pyTitleGo]
    refine ⟨?_, ?_, pyStripL_pyTitleL_of_stripped hg, ?_⟩
    · unfold processTok
      rw [hkey, if_neg hbl, hcl]
      simp only [Option.getD_none, Option.some.injEq]
      exact pyTitleGo_idem g false
    · intro hmem
      obtain ⟨d, hd, hcase⟩ := mem_pyTitleGo false hmem
      rcases hcase with hcase | hcase
      · rw [pyToLower_eq_comma hcase.symm] at hd
        exact hcomma hd
      · rw [pyToUpper_eq_comma hcase.symm] at hd
        exact hcomma hd
    · intro hnil
      have := length_pyTitleGo g false
      rw [show pyTitleL g = pyTitleGo false g from rfl] at hnil
      rw [hnil] at this
      exact hgne (List.eq_nil_of_length_eq_zero this.symm)

/-- Unfolding equation of addTok at a dropped token. -/
theorem addTok_of_none {acc : List (List Char)} {g : List Char}
    (h : processTok g = none) : addTok acc g = acc := by
  unfold addTok
  rw [h]

/-- Unfolding equation of addTok at an accepted token. -/
theorem addTok_of_some {acc : List (List Char)} {g c : List Char}
    (h : processTok g = some c) :
    addTok acc g = if c ∈ acc then acc else acc ++ [c] := by
  unfold addTok
  rw [h]

/-- Labels accumulated by the fold are good whenever the incoming tokens are
comma-free and stripped and the accumulator is good. -/
theorem foldl_addTok_good (toks : List (List Char))
    (htoks : ∀ g ∈ toks, (',' ∉ g) ∧ pyStripL g = g) :
    ∀ acc, (∀ c ∈ acc,
        processTok c = some c ∧ (',' ∉ c) ∧ pyStripL c = c ∧ c ≠ []) →
      ∀ c ∈ toks.foldl addTok acc,
        processTok c = some c ∧ (',' ∉ c) ∧ pyStripL c = c ∧ c ≠ [] := by
  induction toks with
  | nil => intro acc hacc c hc; exact hacc c hc
  | cons g gs ih =>
    intro acc hacc c hc
    simp only [List.foldl_cons] at hc
    refine ih (fun g' h' => htoks g' (List.mem_cons_of_mem g h')) (addTok acc g)
      ?_ c hc
    intro c' hc'
    cases hp : processTok g with
    | none => rw [addTok_of_none hp] at hc'; exact hacc c' hc'
    | some c2 =>
      rw [addTok_of_some hp] at hc'
      split_ifs at hc' with hmem
      · exact hacc c' hc'
      · rcases List.mem_append.mp hc' with h' | h'
        · exact hacc c' h'
        · have hc2 : c' = c2 := by simpa using h'
          subst hc2
          exact processTok_good (htoks g (List.mem_cons_self g gs)).1
            (htoks g (List.mem_cons_self g gs)).2 hp

/-- Every label of normCore is a fixed point of the step, comma-free,
stripped and nonempty. -/
theorem normCore_good (raw : List Char) :
    ∀ c ∈ normCore raw,
      processTok c = some c ∧ (',' ∉ c) ∧ pyStripL c = c ∧ c ≠ [] := by
  unfold normCore
  refine foldl_addTok_good _ ?_ [] (by simp)
  intro g hg
  obtain ⟨p, hp, rfl⟩ := List.mem_map.mp hg
  exact ⟨fun hm => mem_splitOnChar_no_sep hp (mem_of_mem_pyStripL hm),
    pyStripL_idem p⟩

/-- The fold accumulates without duplicates. -/
theorem foldl_addTok_nodup (toks : List (List Char)) :
    ∀ acc : List (List Char), acc.Nodup → (toks.foldl addTok acc).Nodup := by
  induction toks with
  | nil => intro acc h; exact h
  | cons g gs ih =>
    intro acc hacc
    simp only [List.foldl_cons]
    refine ih (addTok acc g) ?_
    cases hp : processTok g with
    | none => rw [addTok_of_none hp]; exact hacc
    | some c =>
      rw [addTok_of_some hp]
      split_ifs with hmem
      · exact hacc
      · simp [List.nodup_append, hacc, hmem]

/-- normCore emits pairwise distinct labels. -/
theorem normCore_nodup (raw : List Char) : (normCore raw).Nodup :=
  foldl_addTok_nodup _ [] (by simp)

/-- Folding over tokens that are already fixed points of the step, with no
duplicates anywhere, appends them all. -/
theorem foldl_addTok_fixed (toks : List (List Char))
    (hfix : ∀ c ∈ toks, processTok c = some c) :
    ∀ acc, (acc ++ toks).Nodup → toks.foldl addTok acc = acc ++ toks := by
  induction toks with
  | nil => intro acc h; simp
  | cons c cs ih =>
    intro acc hnd
    simp only [List.foldl_cons]
    have hc : processTok c = some c := hfix c (List.mem_cons_self c cs)
    have hcm : c ∉ acc := by
      intro hmem
      exact (List.nodup_append.mp hnd).2.2 hmem (List.mem_cons_self c cs)
    have hstep : addTok acc c = acc ++ [c] := by
      rw [addTok_of_some hc, if_neg hcm]
    rw [hstep, ih (fun c' h' => hfix c' (List.mem_cons_of_mem c h')) (acc ++ [c])
      (by rw [List.append_assoc]; exact hnd)]
    simp

/-- Splitting the comma-space join of comma-free labels recovers the labels,
the later ones with one leading space. -/
theorem splitOnChar_joinCS (cs : List (List Char)) : ∀ c : List Char,
    (',' ∉ c) → (∀ p ∈ cs, ',' ∉ p) →
    splitOnChar ',' (joinCS (c :: cs)) = c :: cs.map (fun p => ' ' :: p) := by
  induction cs with
  | nil =>
    intro c hc _
    exact splitOnChar_of_no_sep hc
  | cons c2 cs' ih =>
    intro c hc hcs
    have hjoin : joinCS (c :: c2 :: cs') = c ++ ',' :: ' ' :: joinCS (c2 :: cs') :=
      rfl
    rw [hjoin, splitOnChar_append_sep _ hc]
    have hrec := ih c2 (hcs c2 (List.mem_cons_self c2 cs'))
      (fun p hp => hcs p (List.mem_cons_of_mem c2 hp))
    rw [splitOnChar_cons_ne (by decide) hrec]
    simp

/-- Stripping the recovered tokens gives back the labels. -/
theorem map_pyStripL_joinTokens (cs : List (List Char)) (c : List Char)
    (hc : pyStripL c = c) (hcs : ∀ p ∈ cs, pyStripL p = p) :
    (c :: cs.map (fun p => ' ' :: p)).map pyStripL = c :: cs := by
  simp only [List.map_cons, hc, List.map_map]
  congr 1
  have : ∀ p ∈ cs, (pyStripL ∘ fun p => ' ' :: p) p = id p := by
    intro p hp
    show pyStripL (' ' :: p) = p
    rw [pyStripL_cons_space, hcs p hp]
  rw [List.map_congr_left this, List.map_id]

/-- String.mk of a nonempty character list is not the empty string. -/
theorem mk_ne_empty {l : List Char} (h : l ≠ []) : String.mk l ≠ "" := by
  intro he
  apply h
  have h2 : (String.mk l).toList = ("" : String).toList := by rw [he]
  simpa using h2

/-! ## Claim C9 -/

/-- C9: normalize_genres is idempotent: re-running it on its own output,
re-joined into a comma-separated string, returns the same ordered list.
Every emitted label is a comma-free, stripped fixed point of the per-token
step (canonical values map to themselves through the dictionary or title
case; fallback labels are title-cased tokens and title-casing is
idempotent), so the re-split recovers exactly the labels and the
deduplicating fold, fed pairwise distinct fixed points, reproduces them in
order. -/
theorem claim_C9 : ∀ s : String,
    normalize_genres (joinComma (normalize_genres s)) = normalize_genres s := by
  intro s
  by_cases hs : s = ""
  · subst hs
    rfl
  · have hgood := normCore_good s.toList
    have hnodup := normCore_nodup s.toList
    have hlhs : normalize_genres s = (normCore s.toList).map String.mk := by
      unfold normalize_genres
      rw [if_neg hs]
    cases houtc : normCore s.toList with
    | nil =>
      rw [hlhs, houtc]
      rfl
    | cons c cs =>
      rw [houtc] at hlhs hgood hnodup
      have hcgood := hgood c (List.mem_cons_self c cs)
      have hjoin_ne : joinCS (c :: cs) ≠ [] := by
        cases cs with
        | nil => exact hcgood.2.2.2
        | cons c2 cs' =>
          show c ++ ',' :: ' ' :: joinCS (c2 :: cs') ≠ []
          simp
      have hmaps : ((c :: cs).map String.mk).map String.toList = c :: cs := by
        rw [List.map_map]
        have hcomp : (String.toList ∘ String.mk) = id := rfl
        rw [hcomp, List.map_id]
      have hje : joinComma ((c :: cs).map String.mk) =
          String.mk (joinCS (c :: cs)) := by
        unfold joinComma
        rw [hmaps]
      rw [hlhs, hje]
      unfold normalize_genres
      rw [if_neg (mk_ne_empty hjoin_ne)]
      congr 1
      have htl : (String.mk (joinCS (c :: cs))).toList = joinCS (c :: cs) := rfl
      unfold normCore
      rw [htl]
      rw [splitOnChar_joinCS cs c hcgood.2.1
        (fun p hp => (hgood p (List.mem_cons_of_mem c hp)).2.1)]
      rw [map_pyStripL_joinTokens cs c hcgood.2.2.1
        (fun p hp => (hgood p (List.mem_cons_of_mem c hp)).2.2.1)]
      rw [foldl_addTok_fixed (c :: cs)
        (fun p hp => (hgood p hp).1) [] (by simpa using hnodup)]
      rfl
